import Mathlib

set_option maxRecDepth 8000

/-!
Verification of the aggregation and calendar-rendering pipeline of
src/server.js (mergeMaps, mergedMapToPayload, renderCalendarSVG,
parseUsersParam).

JavaScript strings are modelled as lists of characters, JavaScript Maps
and plain objects as association lists in insertion order (Map.set
updates an existing key in place and appends a fresh key at the end),
and calendar instants as integer day numbers counted from the Unix
epoch, exactly as the millisecond arithmetic of the source divides out
to whole days.  The calendar conversions performed by Date.UTC,
Date.prototype.getUTCDay and Date.prototype.toISOString are modelled by
the day-number arithmetic that ECMA-262 prescribes for them
(DayFromYear, YearFromTime, MonthFromTime, WeekDay).
-/

/-! ### JavaScript string ordering (the default Array.prototype.sort order) -/

/-! ### Sorting string keys (Array.prototype.sort with the default comparator) -/

/-! ### Splitting, trimming, numeric parsing -/

/-! ### The proleptic Gregorian calendar as specified by ECMA-262

Date.UTC, getUTCDay and toISOString are specified in ECMA-262 through
day-number arithmetic (DayFromYear, YearFromTime, MonthFromTime,
DateFromTime, WeekDay).  The definitions below are that arithmetic,
over day numbers counted from 1970-01-01. -/

/-! ### ISO date strings (toISOString) and month keys -/

/-- Lexicographic comparison of character lists, modelling the `<`
comparison that the default Array.prototype.sort callback performs on
JavaScript strings (code-unit by code-unit, a strict prefix sorts
first). -/
def jsLtChars : List Char → List Char → Bool
  | _, [] => false
  | [], _ :: _ => true
  | a :: as, b :: bs =>
    if a < b then true
    else if b < a then false
    else jsLtChars as bs

/-- Non-strict string order derived from `jsLtChars`. -/
def jsLe (s t : List Char) : Bool := !(jsLtChars t s)

/-- Insert a key into a sorted list of keys, keeping `jsLe` order. -/
def insertKey (x : List Char) : List (List Char) → List (List Char)
  | [] => [x]
  | y :: ys => if jsLe x y then x :: y :: ys else y :: insertKey x ys

/-- Stable comparison sort of string keys by the default JavaScript string
order, modelling `Array.prototype.sort()` on an array of ISO date keys. -/
def sortKeys : List (List Char) → List (List Char)
  | [] => []
  | x :: xs => insertKey x (sortKeys xs)

/-- Split a character list at every occurrence of the delimiter `c`,
modelling String.prototype.split with a single-character separator. -/
def splitOnChar (c : Char) : List Char → List (List Char)
  | [] => [[]]
  | a :: as =>
    if a = c then [] :: splitOnChar c as
    else
      match splitOnChar c as with
      | [] => [[a]]
      | g :: gs => (a :: g) :: gs

/-- Strip whitespace from both ends, modelling String.prototype.trim. -/
def trimChars (s : List Char) : List Char :=
  ((s.dropWhile Char.isWhitespace).reverse.dropWhile Char.isWhitespace).reverse

/-- Numeric conversion of a digit string, modelling the Number()
coercion that the renderer applies to the fields of an ISO date (digit
strings only; anything else is mapped to 0, a case the server never
exercises on well-formed payloads). -/
def toNumChars (s : List Char) : Int :=
  if s ≠ [] ∧ s.all Char.isDigit then
    (s.foldl (fun acc ch => 10 * acc + ((ch.toNat : Int) - 48)) 0)
  else 0

/-- The decimal digit character for `n < 10`. -/
def digitChar (n : Nat) : Char := Char.ofNat (48 + n)

/-- Two-digit zero-padded decimal rendering (month and day fields of an
ISO date produced by toISOString). -/
def pad2 (n : Nat) : List Char := [digitChar (n / 10 % 10), digitChar (n % 10)]

/-- Four-digit zero-padded decimal rendering (year field of an ISO date
produced by toISOString). -/
def pad4 (n : Nat) : List Char :=
  [digitChar (n / 1000 % 10), digitChar (n / 100 % 10),
   digitChar (n / 10 % 10), digitChar (n % 10)]

/-- The month key rendered by the server: zero-padded year, a dash, and
a zero-padded month. -/
def monthKeyPad (y m : Nat) : List Char := pad4 y ++ '-' :: pad2 m

/-- ECMA-262 DayFromYear: the day number of 1 January of year `y`. -/
def dayFromYear (y : Int) : Int :=
  365 * (y - 1970) + (y - 1969) / 4 - (y - 1901) / 100 + (y - 1601) / 400

/-- Gregorian leap-year test (ECMA-262 DaysInYear). -/
def isLeap (y : Int) : Bool :=
  (y % 4 == 0 && y % 100 != 0) || (y % 400 == 0)

/-- ECMA-262 InLeapYear as an integer 0 or 1. -/
def leapInt (y : Int) : Int := if isLeap y then 1 else 0

/-- Search, downward from `fuel`, for the largest year offset `k` with
`dayFromYear (base + k) ≤ d`; used to realise the ECMA-262 YearFromTime
characterisation inside one 400-year era. -/
def yearSearch (base d : Int) : Nat → Int
  | 0 => 0
  | k + 1 =>
    if dayFromYear (base + (k : Int) + 1) ≤ d then (k : Int) + 1
    else yearSearch base d k

/-- ECMA-262 YearFromTime: the unique year whose days contain day `d`. -/
def yearFromDay (d : Int) : Int :=
  1970 + 400 * (d / 146097) + yearSearch (1970 + 400 * (d / 146097)) d 399

/-- ECMA-262 day-within-year offset at which month `m` (1 to 12) starts,
with `L` the InLeapYear value of the year. -/
def monthStartDwy (L m : Int) : Int :=
  if m = 1 then 0 else if m = 2 then 31 else if m = 3 then 59 + L
  else if m = 4 then 90 + L else if m = 5 then 120 + L
  else if m = 6 then 151 + L else if m = 7 then 181 + L
  else if m = 8 then 212 + L else if m = 9 then 243 + L
  else if m = 10 then 273 + L else if m = 11 then 304 + L else 334 + L

/-- ECMA-262 MonthFromTime (1-based): the month containing day-within-year
`dwy` in a year with InLeapYear value `L`. -/
def monthFromDwy (L dwy : Int) : Int :=
  if dwy < 31 then 1 else if dwy < 59 + L then 2 else if dwy < 90 + L then 3
  else if dwy < 120 + L then 4 else if dwy < 151 + L then 5
  else if dwy < 181 + L then 6 else if dwy < 212 + L then 7
  else if dwy < 243 + L then 8 else if dwy < 273 + L then 9
  else if dwy < 304 + L then 10 else if dwy < 334 + L then 11 else 12

/-- Day-within-year of a day number (ECMA-262 DayWithinYear). -/
def dwyOfDay (z : Int) : Int := z - dayFromYear (yearFromDay z)

/-- Calendar month (1 to 12) of a day number. -/
def monthFromDay (z : Int) : Int :=
  monthFromDwy (leapInt (yearFromDay z)) (dwyOfDay z)

/-- Day of the month (1 to 31) of a day number (ECMA-262 DateFromTime). -/
def dayOfMonthFromDay (z : Int) : Int :=
  dwyOfDay z - monthStartDwy (leapInt (yearFromDay z)) (monthFromDay z) + 1

/-- ECMA-262 WeekDay: 0 is Sunday; day 0 (1970-01-01) is a Thursday. -/
def dayOfWeek (z : Int) : Int := (z + 4) % 7

/-- Date.UTC for a 1-based month, as ECMA-262 MakeDay prescribes: the
two-digit-year rule, month overflow folded into the year, then
DayFromYear plus the month start plus the day offset. -/
def daysFromCivil (y m d : Int) : Int :=
  let yr := if 0 ≤ y ∧ y ≤ 99 then y + 1900 else y
  let ym := yr + (m - 1) / 12
  let mn := (m - 1) % 12
  dayFromYear ym + monthStartDwy (leapInt ym) (mn + 1) + (d - 1)

/-- The date part of Date.prototype.toISOString applied to day number
`z`: the zero-padded year, month and day joined with dashes (years 0 to
9999, the range in which toISOString uses the four-digit form). -/
def isoOfDay (z : Int) : List Char :=
  pad4 (yearFromDay z).toNat
    ++ '-' :: (pad2 (monthFromDay z).toNat ++ '-' :: pad2 (dayOfMonthFromDay z).toNat)

/-- The `YYYY-MM` month key the renderer derives from an ISO string by
splitting it at dashes and joining the first two fields. -/
def monthKeyOfIso (iso : List Char) : List Char :=
  match splitOnChar '-' iso with
  | y :: m :: _ => y ++ '-' :: m
  | _ => []

/-- The month key of a day number. -/
def monthKeyOfDay (z : Int) : List Char := monthKeyOfIso (isoOfDay z)


/-! ### The server program (src/server.js) -/

/-- Map.prototype.get, and lookup of an own property of a plain object
used as a dictionary: the value stored under `k`, if any. -/
def mapGet (m : List (List Char × Nat)) (k : List Char) : Option Nat :=
  match m with
  | [] => none
  | (k2, v) :: rest => if k2 = k then some v else mapGet rest k

/-- Map.prototype.set: update an existing key in place, otherwise append
the new entry at the end of the insertion order. -/
def mapSet (m : List (List Char × Nat)) (k : List Char) (v : Nat) :
    List (List Char × Nat) :=
  match m with
  | [] => [(k, v)]
  | (k2, v2) :: rest =>
    if k2 = k then (k2, v) :: rest else (k2, v2) :: mapSet rest k v

/-- The inner loop of mergeMaps (src/server.js lines 98 to 102): add every
entry of one fetched calendar into the accumulator, treating a missing
key as 0 via the `|| 0` default. -/
def mergeInto (merged m : List (List Char × Nat)) : List (List Char × Nat) :=
  m.foldl (fun acc p => mapSet acc p.1 ((mapGet acc p.1).getD 0 + p.2)) merged

/-- mergeMaps (src/server.js lines 96 to 104): fold all fetched calendars
into one map, starting from the empty map. -/
def mergeMaps (maps : List (List (List Char × Nat))) : List (List Char × Nat) :=
  maps.foldl mergeInto []

/-- The JSON payload produced by mergedMapToPayload. -/
structure Payload where
  start : Option (List Char)
  «end» : Option (List Char)
  total : Nat
  counts : List (List Char × Nat)
deriving DecidableEq

/-- The `x || null` coercion applied to `dates[0]` and to the last
element: undefined and the empty string both become null. -/
def orNull (o : Option (List Char)) : Option (List Char) :=
  match o with
  | some s => if s = [] then none else some s
  | none => none

/-- mergedMapToPayload (src/server.js lines 106 to 117): sort the keys,
take the first and last as start and end, total the values, and expose
the merged map as the counts object. -/
def mergedMapToPayload (merged : List (List Char × Nat)) : Payload :=
  let dates := sortKeys (merged.map Prod.fst)
  { start := orNull dates.head?
    «end» := orNull dates.getLast?
    total := merged.foldl (fun t p => t + p.2) 0
    counts := merged }

/-- The quartile thresholds of src/server.js lines 155 to 160, derived
from the maximum count (floating-point quarters of an integer below
2 to the 50th are exact, so Math.floor of them is integer division). -/
def breaks (maxCount : Nat) : List Nat :=
  [max 0 0, max 1 (maxCount / 4), max 1 (maxCount / 2), max 1 (maxCount * 3 / 4)]

/-- The five fill colours of src/server.js line 161. -/
def palette : List (List Char) :=
  ["#ebedf0".data, "#9be9a8".data, "#40c463".data, "#30a14e".data,
   "#216e39".data]

/-- The loop index at which colorForCount (src/server.js lines 163 to
168) exits: the first break at or above the count, or 4 when every
break is below it. -/
def colorBin (maxCount count : Nat) : Nat :=
  (breaks maxCount).findIdx (fun b => count ≤ b)

/-- colorForCount: the palette entry selected by the loop; a missed scan
falls through to the last palette entry, whose index the loop exit value
4 already is. -/
def colorForCount (maxCount count : Nat) : List Char :=
  palette.getD (colorBin maxCount count) []

/-- parseDate of src/server.js lines 127 to 130: split the ISO string at
dashes, coerce the fields to numbers, and build the Date.UTC day
number. -/
def parseDate (s : List Char) : Int :=
  match (splitOnChar '-' s).map toNumChars with
  | [y, m, d] => daysFromCivil y m d
  | _ => 0

/-- Alignment of the calendar start to the previous Sunday
(src/server.js lines 134 to 137). -/
def calendarStartOf (startDate : Int) : Int := startDate - dayOfWeek startDate

/-- The inclusive day count of the rendered range (src/server.js line
141); the millisecond quotient is exact, so Math.round is the
identity. -/
def totalDaysOf (startDate lastDate : Int) : Int :=
  lastDate - calendarStartOf startDate + 1

/-- Math.ceil(totalDays / 7) (src/server.js line 142), as ceiling
division on integers. -/
def weeksOf (totalDays : Int) : Int := -((-totalDays) / 7)

/-- Math.max(...vals, 1) over the values of the counts object
(src/server.js line 154). -/
def maxCountOf (counts : List (List Char × Nat)) : Nat :=
  (counts.map Prod.snd).foldl max 1

/-- One `rect` of the rendered calendar (src/server.js lines 193 to
204): its ISO date, pixel position, count and fill colour. -/
structure GridCell where
  iso : List Char
  x : Int
  y : Int
  count : Nat
  fill : List Char
deriving DecidableEq

/-- One month label (src/server.js lines 207 to 221). -/
structure MonthLabel where
  key : List Char
  label : List Char
  weekColumn : Nat
  x : Int
deriving DecidableEq

/-- One weekday label (src/server.js lines 224 to 229). -/
structure WeekdayLabel where
  dow : Int
  text : List Char
  x : Int
  y : Int
deriving DecidableEq

/-- The geometry renderCalendarSVG computes before serialising it to
SVG text: overall dimensions, day cells, month labels and weekday
labels. -/
structure RenderedCalendar where
  width : Int
  height : Int
  cells : List GridCell
  monthLabels : List MonthLabel
  weekdayLabels : List WeekdayLabel
deriving DecidableEq

/-- The minimal `<svg/>` document returned for an empty series
(src/server.js line 124): no cells and no labels. -/
def emptyRendered : RenderedCalendar :=
  { width := 0, height := 0, cells := [], monthLabels := [], weekdayLabels := [] }

/-- The cell loop of src/server.js lines 192 to 204: one cell per day
offset within the aligned range, with the `|| 0` default for dates
missing from the counts object. -/
def cellsOf (calendarStart totalDays : Int) (counts : List (List Char × Nat))
    (maxCount : Nat) : List GridCell :=
  (List.range totalDays.toNat).map (fun (i : Nat) =>
    let d := calendarStart + (i : Int)
    let iso := isoOfDay d
    let count := (mapGet counts iso).getD 0
    { iso := iso
      x := 36 + 8 + ((i / 7 : Nat) : Int) * (12 + 4)
      y := 22 + 8 + dayOfWeek d * (12 + 4)
      count := count
      fill := colorForCount maxCount count })

/-- The month scan of src/server.js lines 170 to 182: walk the aligned
range in chronological order and record, for each month key not seen
before, the week index of its first day in range.  `monthScan cal n`
is the state of the scan after the days `cal` to `cal + n - 1`. -/
def monthScan (calendarStart : Int) : Nat → List (List Char × Nat)
  | 0 => []
  | n + 1 =>
    let mp := monthScan calendarStart n
    let mk := monthKeyOfDay (calendarStart + (n : Int))
    if mk ∈ mp.map Prod.fst then mp else mp ++ [(mk, n / 7)]

/-- The month positions recorded by the scan over the whole rendered
range. -/
def monthPositionsOf (calendarStart totalDays : Int) :
    List (List Char × Nat) :=
  monthScan calendarStart totalDays.toNat

/-- The month names of src/server.js line 207. -/
def monthNames : List (List Char) :=
  ["Jan".data, "Feb".data, "Mar".data, "Apr".data, "May".data, "Jun".data,
   "Jul".data, "Aug".data, "Sep".data, "Oct".data, "Nov".data, "Dec".data]

/-- The month-label loop of src/server.js lines 209 to 221: sort the
recorded month keys, then emit one label per key at the week column of
its first occurrence. -/
def monthLabelsOf (monthPositions : List (List Char × Nat)) :
    List MonthLabel :=
  (sortKeys (monthPositions.map Prod.fst)).map (fun mk =>
    let m := (splitOnChar '-' mk).getD 1 []
    let monthIndex := toNumChars m - 1
    let weekIndex := (mapGet monthPositions mk).getD 0
    { key := mk
      label :=
        if 0 ≤ monthIndex ∧ monthIndex < 12 then monthNames.getD monthIndex.toNat []
        else []
      weekColumn := weekIndex
      x := 36 + 8 + (weekIndex : Int) * (12 + 4) })

/-- The fixed weekday labels of src/server.js lines 184 to 189 and 224
to 229: Mon, Wed and Fri rows at a fixed offset left of the grid. -/
def weekdayLabelsOf : List WeekdayLabel :=
  [{ dow := 1, text := "Mon".data, x := 36 - 6, y := 22 + 8 + 1 * (12 + 4) + 12 / 2 + 4 },
   { dow := 3, text := "Wed".data, x := 36 - 6, y := 22 + 8 + 3 * (12 + 4) + 12 / 2 + 4 },
   { dow := 5, text := "Fri".data, x := 36 - 6, y := 22 + 8 + 5 * (12 + 4) + 12 / 2 + 4 }]

/-- renderCalendarSVG (src/server.js lines 122 to 244), retaining the
geometry it computes rather than its final string serialisation.  A
falsy start or end (null from an empty series, or an empty string)
returns the minimal document; otherwise the range is parsed, aligned to
the previous Sunday, and cells and labels are produced. -/
def renderCalendarSVG (payload : Payload) : RenderedCalendar :=
  match payload.start, payload.«end» with
  | some s, some e =>
    if s = [] ∨ e = [] then emptyRendered
    else
      let startDate := parseDate s
      let lastDate := parseDate e
      let calendarStart := calendarStartOf startDate
      let totalDays := totalDaysOf startDate lastDate
      let weeks := weeksOf totalDays
      { width := 36 + 8 + weeks * (12 + 4)
        height := 22 + 8 + 7 * (12 + 4)
        cells := cellsOf calendarStart totalDays payload.counts
          (maxCountOf payload.counts)
        monthLabels := monthLabelsOf (monthPositionsOf calendarStart totalDays)
        weekdayLabels := weekdayLabelsOf }
  | _, _ => emptyRendered

/-- parseUsersParam (src/server.js lines 246 to 252): split the users
query parameter at commas, trim, drop empty entries, and reject an
empty or oversized list with a client error. -/
def parseUsersParam (q : Option (List Char)) :
    Except (List Char) (List (List Char)) :=
  let raw := q.getD []
  let users := ((splitOnChar ',' raw).map trimChars).filter (fun s => !s.isEmpty)
  if users.length = 0 then
    Except.error ("Missing users parameter. Example: ?users=donken,donken-lilly".data)
  else if users.length > 10 then
    Except.error ("Too many users requested (limit 10).".data)
  else Except.ok users

/-- aggregateUsers (src/server.js lines 254 to 259) with the network
fetch abstracted to a function from login to fetched calendar: merge
all calendars and summarise. -/
def aggregateUsers (fetch : List Char → List (List Char × Nat))
    (users : List (List Char)) : Payload :=
  mergedMapToPayload (mergeMaps (users.map fetch))

/-- The /api/combined handler (src/server.js lines 262 to 279) without
its cache: parameter validation happens first, and a validation error
is returned before the aggregation pipeline runs. -/
def apiCombined (fetch : List Char → List (List Char × Nat))
    (q : Option (List Char)) : Except (List Char) Payload :=
  match parseUsersParam q with
  | Except.error e => Except.error e
  | Except.ok users => Except.ok (aggregateUsers fetch users)

/-! ### Supporting lemmas -/

theorem jsLtChars_irrefl (a : List Char) : jsLtChars a a = false := by
  induction a with
  | nil => rfl
  | cons x xs ih => simp [jsLtChars, ih]

theorem jsLtChars_asymm (a b : List Char) (h : jsLtChars a b = true) :
    jsLtChars b a = false := by
  induction a generalizing b with
  | nil =>
    cases b with
    | nil => simpa [jsLtChars] using h
    | cons y ys => simp [jsLtChars]
  | cons x xs ih =>
    cases b with
    | nil => simp [jsLtChars] at h
    | cons y ys =>
      simp only [jsLtChars] at h ⊢
      rcases lt_trichotomy x y with hxy | hxy | hxy
      · simp [hxy, not_lt_of_lt hxy]
      · subst hxy
        simp only [lt_irrefl, if_false] at h ⊢
        exact ih ys h
      · simp [hxy, not_lt_of_lt hxy] at h

theorem jsLtChars_trans (a b c : List Char) (hab : jsLtChars a b = true)
    (hbc : jsLtChars b c = true) : jsLtChars a c = true := by
  induction a generalizing b c with
  | nil =>
    cases c with
    | nil =>
      cases b with
      | nil => simpa [jsLtChars] using hab
      | cons y ys => simp [jsLtChars] at hbc
    | cons z zs => simp [jsLtChars]
  | cons x xs ih =>
    cases b with
    | nil => simp [jsLtChars] at hab
    | cons y ys =>
      cases c with
      | nil => simp [jsLtChars] at hbc
      | cons z zs =>
        simp only [jsLtChars] at hab hbc ⊢
        rcases lt_trichotomy x y with hxy | hxy | hxy
        · rcases lt_trichotomy y z with hyz | hyz | hyz
          · have hxz := lt_trans hxy hyz
            simp [hxz]
          · subst hyz
            simp [hxy]
          · simp [hyz, not_lt_of_lt hyz] at hbc
        · subst hxy
          rcases lt_trichotomy x z with hxz | hxz | hxz
          · simp [hxz]
          · subst hxz
            simp only [lt_irrefl, if_false] at hab hbc ⊢
            exact ih ys zs hab hbc
          · simp [hxz, not_lt_of_lt hxz] at hbc
        · simp [hxy, not_lt_of_lt hxy] at hab

theorem jsLtChars_conn (a b : List Char) (hab : jsLtChars a b = false)
    (hba : jsLtChars b a = false) : a = b := by
  induction a generalizing b with
  | nil =>
    cases b with
    | nil => rfl
    | cons y ys => simp [jsLtChars] at hab
  | cons x xs ih =>
    cases b with
    | nil => simp [jsLtChars] at hba
    | cons y ys =>
      simp only [jsLtChars] at hab hba
      rcases lt_trichotomy x y with hxy | hxy | hxy
      · simp [hxy] at hab
      · subst hxy
        simp only [lt_irrefl, if_false] at hab hba
        rw [ih ys hab hba]
      · simp [hxy] at hba

theorem jsLe_refl (a : List Char) : jsLe a a = true := by
  simp [jsLe, jsLtChars_irrefl]

theorem jsLe_total (a b : List Char) : jsLe a b = true ∨ jsLe b a = true := by
  by_cases h : jsLtChars b a = true
  · right
    simp [jsLe, jsLtChars_asymm _ _ h]
  · left
    simp only [Bool.not_eq_true] at h
    simp [jsLe, h]

theorem jsLe_trans (a b c : List Char) (hab : jsLe a b = true)
    (hbc : jsLe b c = true) : jsLe a c = true := by
  simp only [jsLe, Bool.not_eq_true'] at hab hbc ⊢
  by_cases hca : jsLtChars c a = true
  · by_cases h : jsLtChars a b = true
    · have hcb := jsLtChars_trans c a b hca h
      simp [hcb] at hbc
    · have heq : a = b := jsLtChars_conn a b (by simpa using h) hab
      subst heq
      simp [hca] at hbc
  · simpa using hca

theorem jsLe_antisymm (a b : List Char) (hab : jsLe a b = true)
    (hba : jsLe b a = true) : a = b := by
  simp only [jsLe, Bool.not_eq_true'] at hab hba
  exact jsLtChars_conn a b hba hab

theorem insertKey_perm (x : List Char) (l : List (List Char)) :
    (insertKey x l).Perm (x :: l) := by
  induction l with
  | nil => exact List.Perm.refl _
  | cons y ys ih =>
    by_cases h : jsLe x y = true
    · simp [insertKey, h]
    · simp only [insertKey, h, if_false]
      exact ((ih.cons y).trans (List.Perm.swap x y ys))

theorem sortKeys_perm (l : List (List Char)) : (sortKeys l).Perm l := by
  induction l with
  | nil => exact List.Perm.refl _
  | cons x xs ih =>
    exact (insertKey_perm x (sortKeys xs)).trans (ih.cons x)

theorem insertKey_pairwise (x : List Char) (l : List (List Char))
    (h : l.Pairwise (fun a b => jsLe a b = true)) :
    (insertKey x l).Pairwise (fun a b => jsLe a b = true) := by
  induction l with
  | nil => simp [insertKey]
  | cons y ys ih =>
    rcases List.pairwise_cons.mp h with ⟨hy, hys⟩
    by_cases hxy : jsLe x y = true
    · simp only [insertKey, hxy, if_true]
      refine List.pairwise_cons.mpr ⟨?_, h⟩
      intro b hb
      rcases List.mem_cons.mp hb with hb | hb
      · exact hb ▸ hxy
      · exact jsLe_trans _ _ _ hxy (hy b hb)
    · have hyx : jsLe y x = true := (jsLe_total x y).resolve_left hxy
      simp only [insertKey, hxy, if_false]
      refine List.pairwise_cons.mpr ⟨?_, ih hys⟩
      intro b hb
      have hb2 := (insertKey_perm x ys).mem_iff.mp hb
      rcases List.mem_cons.mp hb2 with hb2 | hb2
      · exact hb2 ▸ hyx
      · exact hy b hb2

theorem sortKeys_pairwise (l : List (List Char)) :
    (sortKeys l).Pairwise (fun a b => jsLe a b = true) := by
  induction l with
  | nil => simp [sortKeys]
  | cons x xs ih => exact insertKey_pairwise x (sortKeys xs) ih

/-- Inserting a key that is strictly below every element of the list
leaves it at the head. -/
theorem insertKey_of_lt (x : List Char) (l : List (List Char))
    (h : ∀ b ∈ l, jsLtChars x b = true) : insertKey x l = x :: l := by
  cases l with
  | nil => rfl
  | cons y ys =>
    have hxy : jsLe x y = true := by
      have := h y (List.mem_cons_self y ys)
      simp [jsLe, jsLtChars_asymm _ _ this]
    simp [insertKey, hxy]

/-- Sorting a list that is already strictly increasing returns it
unchanged. -/
theorem sortKeys_of_sorted (l : List (List Char))
    (h : l.Pairwise (fun a b => jsLtChars a b = true)) : sortKeys l = l := by
  induction l with
  | nil => rfl
  | cons x xs ih =>
    rcases List.pairwise_cons.mp h with ⟨hx, hxs⟩
    rw [sortKeys, ih hxs]
    exact insertKey_of_lt x xs hx

theorem digitChar_lt_iff : ∀ a, a < 10 → ∀ b, b < 10 →
    ((digitChar a < digitChar b) ↔ a < b) := by decide

theorem digitChar_eq_iff : ∀ a, a < 10 → ∀ b, b < 10 →
    ((digitChar a = digitChar b) ↔ a = b) := by decide

theorem digitChar_ne_dash : ∀ a, a < 10 → digitChar a ≠ '-' := by decide

theorem digitChar_mod_lt_iff (x y : Nat) :
    (digitChar (x % 10) < digitChar (y % 10)) ↔ x % 10 < y % 10 :=
  digitChar_lt_iff _ (Nat.mod_lt _ (by omega)) _ (Nat.mod_lt _ (by omega))

theorem digitChar_mod_eq_iff (x y : Nat) :
    (digitChar (x % 10) = digitChar (y % 10)) ↔ x % 10 = y % 10 :=
  digitChar_eq_iff _ (Nat.mod_lt _ (by omega)) _ (Nat.mod_lt _ (by omega))

theorem jsLtChars_pad4_append (a b : Nat) (r s : List Char)
    (ha : a < 10000) (hb : b < 10000) :
    jsLtChars (pad4 a ++ r) (pad4 b ++ s)
      = if a < b then true else if b < a then false else jsLtChars r s := by
  simp only [pad4, List.cons_append, List.nil_append, jsLtChars,
    digitChar_mod_lt_iff]
  split_ifs <;> first | rfl | omega

theorem jsLtChars_pad2_append (a b : Nat) (r s : List Char)
    (ha : a < 100) (hb : b < 100) :
    jsLtChars (pad2 a ++ r) (pad2 b ++ s)
      = if a < b then true else if b < a then false else jsLtChars r s := by
  simp only [pad2, List.cons_append, List.nil_append, jsLtChars,
    digitChar_mod_lt_iff]
  split_ifs <;> first | rfl | omega

theorem pad4_inj (a b : Nat) (ha : a < 10000) (hb : b < 10000) :
    pad4 a = pad4 b ↔ a = b := by
  simp only [pad4, List.cons.injEq, and_true, digitChar_mod_eq_iff]
  omega

theorem pad2_inj (a b : Nat) (ha : a < 100) (hb : b < 100) :
    pad2 a = pad2 b ↔ a = b := by
  simp only [pad2, List.cons.injEq, and_true, digitChar_mod_eq_iff]
  omega

theorem jsLtChars_monthKeyPad (y1 m1 y2 m2 : Nat)
    (hy1 : y1 < 10000) (hy2 : y2 < 10000) (hm1 : m1 < 100) (hm2 : m2 < 100) :
    jsLtChars (monthKeyPad y1 m1) (monthKeyPad y2 m2) = true
      ↔ (y1 < y2 ∨ (y1 = y2 ∧ m1 < m2)) := by
  unfold monthKeyPad
  rw [jsLtChars_pad4_append _ _ _ _ hy1 hy2]
  split_ifs with h1 h2
  · simp [h1]
  · simp only [Bool.false_eq_true, false_iff]
    omega
  · have hy : y1 = y2 := by omega
    subst hy
    simp only [jsLtChars, pad2, lt_irrefl, if_false, digitChar_mod_lt_iff,
      lt_self_iff_false, false_or, true_and]
    split_ifs <;> (try simp) <;> omega

theorem monthKeyPad_inj (y1 m1 y2 m2 : Nat)
    (hy1 : y1 < 10000) (hy2 : y2 < 10000) (hm1 : m1 < 100) (hm2 : m2 < 100) :
    monthKeyPad y1 m1 = monthKeyPad y2 m2 ↔ (y1 = y2 ∧ m1 = m2) := by
  unfold monthKeyPad
  constructor
  · intro h
    have h4 : pad4 y1 = pad4 y2 := by
      have := congrArg (fun l => l.take 4) h
      simpa [pad4, pad2] using this
    have hrest := congrArg (fun l => l.drop 5) h
    have h2 : pad2 m1 = pad2 m2 := by
      simpa [pad4, pad2] using hrest
    exact ⟨(pad4_inj _ _ hy1 hy2).mp h4, (pad2_inj _ _ hm1 hm2).mp h2⟩
  · rintro ⟨h1, h2⟩
    rw [h1, h2]

theorem dayFromYear_era (e : Int) : dayFromYear (1970 + 400 * e) = 146097 * e := by
  unfold dayFromYear; omega

theorem dayFromYear_lt (y1 y2 : Int) (h : y1 < y2) :
    dayFromYear y1 < dayFromYear y2 := by
  unfold dayFromYear; omega

theorem dayFromYear_mono (y1 y2 : Int) (h : y1 ≤ y2) :
    dayFromYear y1 ≤ dayFromYear y2 := by
  unfold dayFromYear; omega

theorem dayFromYear_succ (y : Int) :
    dayFromYear (y + 1) - dayFromYear y = 365 + leapInt y := by
  unfold dayFromYear leapInt isLeap
  simp only [Bool.or_eq_true, Bool.and_eq_true, beq_iff_eq, bne_iff_ne, ne_eq,
    decide_eq_true_eq]
  split <;> omega

theorem yearSearch_le (base d : Int) (fuel : Nat)
    (hbase : dayFromYear base ≤ d) :
    dayFromYear (base + yearSearch base d fuel) ≤ d := by
  induction fuel with
  | zero => simpa [yearSearch] using hbase
  | succ k ih =>
    by_cases h : dayFromYear (base + (k : Int) + 1) ≤ d
    · simp only [yearSearch, h, if_true]
      have harg : base + ((k : Int) + 1) = base + (k : Int) + 1 := by ring
      rw [harg]
      exact h
    · simpa [yearSearch, h] using ih

theorem yearSearch_ub (base d : Int) (fuel : Nat)
    (h : d < dayFromYear (base + (fuel : Int) + 1)) :
    d < dayFromYear (base + yearSearch base d fuel + 1) := by
  induction fuel with
  | zero => simpa [yearSearch] using h
  | succ k ih =>
    by_cases hif : dayFromYear (base + (k : Int) + 1) ≤ d
    · simp only [yearSearch, hif, if_true]
      push_cast at h
      exact h
    · simp only [yearSearch, hif, if_false]
      exact ih (by omega)

theorem yearFromDay_spec (d : Int) :
    dayFromYear (yearFromDay d) ≤ d ∧ d < dayFromYear (yearFromDay d + 1) := by
  have hdiv : 146097 * (d / 146097) ≤ d ∧ d < 146097 * (d / 146097) + 146097 := by
    omega
  have hbase : dayFromYear (1970 + 400 * (d / 146097)) ≤ d := by
    rw [dayFromYear_era]; omega
  constructor
  · exact yearSearch_le _ d 399 hbase
  · refine yearSearch_ub _ d 399 ?_
    have : (1970 + 400 * (d / 146097) + (399 : Nat) + 1 : Int)
        = 1970 + 400 * (d / 146097 + 1) := by push_cast; ring
    rw [this, dayFromYear_era]
    omega

theorem yearFromDay_unique (d y : Int) (h1 : dayFromYear y ≤ d)
    (h2 : d < dayFromYear (y + 1)) : yearFromDay d = y := by
  rcases yearFromDay_spec d with ⟨s1, s2⟩
  by_contra hne
  rcases lt_or_gt_of_ne hne with hlt | hgt
  · have := dayFromYear_mono (yearFromDay d + 1) y (by omega)
    omega
  · have := dayFromYear_mono (y + 1) (yearFromDay d) (by omega)
    omega

theorem yearFromDay_mono (d1 d2 : Int) (h : d1 ≤ d2) :
    yearFromDay d1 ≤ yearFromDay d2 := by
  rcases yearFromDay_spec d1 with ⟨s1, s2⟩
  rcases yearFromDay_spec d2 with ⟨t1, t2⟩
  by_contra hgt
  have := dayFromYear_mono (yearFromDay d2 + 1) (yearFromDay d1) (by omega)
  omega

theorem yearFromDay_bounds (z : Int) (h0 : 0 ≤ z) (h1 : z ≤ 2932896) :
    1970 ≤ yearFromDay z ∧ yearFromDay z ≤ 9999 := by
  have hz : yearFromDay 0 = 1970 := yearFromDay_unique 0 1970 (by decide) (by decide)
  have hm : yearFromDay 2932896 = 9999 :=
    yearFromDay_unique 2932896 9999 (by decide) (by decide)
  constructor
  · have := yearFromDay_mono 0 z h0
    omega
  · have := yearFromDay_mono z 2932896 h1
    omega

theorem monthFromDwy_bounds (L dwy : Int) :
    1 ≤ monthFromDwy L dwy ∧ monthFromDwy L dwy ≤ 12 := by
  unfold monthFromDwy
  omega

theorem monthFromDwy_mono (L dwy1 dwy2 : Int) (h : dwy1 ≤ dwy2) :
    monthFromDwy L dwy1 ≤ monthFromDwy L dwy2 := by
  unfold monthFromDwy
  omega

theorem monthFromDay_bounds (z : Int) :
    1 ≤ monthFromDay z ∧ monthFromDay z ≤ 12 :=
  monthFromDwy_bounds _ _

/-- The year-month pair is weakly monotone in the day number. -/
theorem monthPair_mono (z1 z2 : Int) (h : z1 ≤ z2) :
    yearFromDay z1 < yearFromDay z2 ∨
      (yearFromDay z1 = yearFromDay z2 ∧ monthFromDay z1 ≤ monthFromDay z2) := by
  rcases lt_or_eq_of_le (yearFromDay_mono z1 z2 h) with hy | hy
  · exact Or.inl hy
  · refine Or.inr ⟨hy, ?_⟩
    unfold monthFromDay dwyOfDay
    rw [hy]
    exact monthFromDwy_mono _ _ _ (by omega)

theorem splitOnChar_not_mem (c : Char) (a : List Char) (h : c ∉ a) :
    splitOnChar c a = [a] := by
  induction a with
  | nil => rfl
  | cons x xs ih =>
    have hx : ¬(x = c) := fun hc => h (hc ▸ List.mem_cons_self x xs)
    have hxs : c ∉ xs := fun hc => h (List.mem_cons_of_mem x hc)
    simp only [splitOnChar, hx, if_false, ih hxs]

theorem splitOnChar_append (c : Char) (a rest : List Char) (h : c ∉ a) :
    splitOnChar c (a ++ c :: rest) = a :: splitOnChar c rest := by
  induction a with
  | nil => simp [splitOnChar]
  | cons x xs ih =>
    have hx : ¬(x = c) := fun hc => h (hc ▸ List.mem_cons_self x xs)
    have hxs : c ∉ xs := fun hc => h (List.mem_cons_of_mem x hc)
    simp only [List.cons_append, splitOnChar, hx, if_false, List.append_eq, ih hxs]

theorem dash_ne_digitChar (x : Nat) : digitChar (x % 10) ≠ '-' :=
  digitChar_ne_dash _ (Nat.mod_lt _ (by omega))

theorem dash_not_mem_pad4 (n : Nat) : '-' ∉ pad4 n := by
  intro h
  simp only [pad4, List.mem_cons, List.not_mem_nil, or_false] at h
  rcases h with h | h | h | h <;> exact dash_ne_digitChar _ h.symm

theorem dash_not_mem_pad2 (n : Nat) : '-' ∉ pad2 n := by
  intro h
  simp only [pad2, List.mem_cons, List.not_mem_nil, or_false] at h
  rcases h with h | h <;> exact dash_ne_digitChar _ h.symm

theorem monthKeyOfDay_eq_pad (z : Int) :
    monthKeyOfDay z
      = monthKeyPad (yearFromDay z).toNat (monthFromDay z).toNat := by
  unfold monthKeyOfDay monthKeyOfIso isoOfDay
  rw [splitOnChar_append _ _ _ (dash_not_mem_pad4 _),
    splitOnChar_append _ _ _ (dash_not_mem_pad2 _),
    splitOnChar_not_mem _ _ (dash_not_mem_pad2 _)]
  rfl


/-! ### Merge lemmas -/

theorem mapGet_mapSet (m : List (List Char × Nat)) (k : List Char) (v : Nat)
    (k2 : List Char) :
    mapGet (mapSet m k v) k2 = if k = k2 then some v else mapGet m k2 := by
  induction m with
  | nil =>
    by_cases h : k = k2 <;> simp [mapSet, mapGet, h]
  | cons p rest ih =>
    obtain ⟨pk, pv⟩ := p
    by_cases hpk : pk = k
    · subst hpk
      by_cases h2 : pk = k2 <;> simp [mapSet, mapGet, h2]
    · by_cases h2 : pk = k2
      · subst h2
        have hkne : ¬(k = pk) := fun hc => hpk hc.symm
        simp [mapSet, mapGet, hpk, hkne]
      · simp [mapSet, mapGet, hpk, h2, ih]

theorem mapGet_eq_none_iff (m : List (List Char × Nat)) (d : List Char) :
    mapGet m d = none ↔ d ∉ m.map Prod.fst := by
  induction m with
  | nil => simp [mapGet]
  | cons p rest ih =>
    obtain ⟨pk, pv⟩ := p
    by_cases h : pk = d
    · subst h
      simp [mapGet]
    · have hne : ¬(d = pk) := fun hc => h hc.symm
      have hstep : mapGet ((pk, pv) :: rest) d = mapGet rest d := by
        simp [mapGet, h]
      rw [hstep, ih]
      simp [hne]

theorem filter_key_eq_nil (m : List (List Char × Nat)) (d : List Char)
    (h : d ∉ m.map Prod.fst) : m.filter (fun p => p.1 = d) = [] := by
  induction m with
  | nil => rfl
  | cons p rest ih =>
    obtain ⟨pk, pv⟩ := p
    simp only [List.map_cons, List.mem_cons, not_or] at h
    have hpk : ¬(pk = d) := fun hc => h.1 hc.symm
    simp [List.filter_cons, hpk, ih h.2]

theorem mergeInto_get_none (m : List (List Char × Nat)) :
    ∀ (acc : List (List Char × Nat)) (d : List Char),
    mapGet (mergeInto acc m) d = none
      ↔ (mapGet acc d = none ∧ d ∉ m.map Prod.fst) := by
  induction m with
  | nil =>
    intro acc d
    simp [mergeInto]
  | cons p rest ih =>
    intro acc d
    obtain ⟨pk, pv⟩ := p
    have hstep : mergeInto acc ((pk, pv) :: rest)
        = mergeInto (mapSet acc pk ((mapGet acc pk).getD 0 + pv)) rest := rfl
    rw [hstep, ih, mapGet_mapSet]
    by_cases hd : pk = d
    · subst hd
      simp
    · have hne : ¬(d = pk) := fun hc => hd hc.symm
      simp [hd, hne]

theorem mergeInto_get_val (m : List (List Char × Nat)) :
    ∀ (acc : List (List Char × Nat)) (d : List Char),
    (mapGet (mergeInto acc m) d).getD 0
      = (mapGet acc d).getD 0
        + ((m.filter (fun p => p.1 = d)).map Prod.snd).sum := by
  induction m with
  | nil =>
    intro acc d
    simp [mergeInto]
  | cons p rest ih =>
    intro acc d
    obtain ⟨pk, pv⟩ := p
    have hstep : mergeInto acc ((pk, pv) :: rest)
        = mergeInto (mapSet acc pk ((mapGet acc pk).getD 0 + pv)) rest := rfl
    rw [hstep, ih, mapGet_mapSet]
    by_cases hd : pk = d
    · subst hd
      simp only [if_pos rfl, Option.getD_some]
      simp [List.filter_cons]
      omega
    · have hne : ¬(d = pk) := fun hc => hd hc.symm
      simp only [if_neg hd, List.filter_cons]
      have hdec : decide (((pk, pv) : List Char × Nat).1 = d) = false := by
        simp [hd]
      simp only [hdec, Bool.false_eq_true, if_false]

theorem mergeMaps_get_none (maps : List (List (List Char × Nat))) :
    ∀ (acc : List (List Char × Nat)) (d : List Char),
    mapGet (maps.foldl mergeInto acc) d = none
      ↔ (mapGet acc d = none ∧ ∀ m ∈ maps, d ∉ m.map Prod.fst) := by
  induction maps with
  | nil =>
    intro acc d
    simp
  | cons m rest ih =>
    intro acc d
    have hstep : (m :: rest).foldl mergeInto acc
        = rest.foldl mergeInto (mergeInto acc m) := rfl
    rw [hstep, ih, mergeInto_get_none]
    constructor
    · rintro ⟨⟨h1, h2⟩, h3⟩
      refine ⟨h1, ?_⟩
      intro m2 hm2
      rcases List.mem_cons.mp hm2 with rfl | hm2
      · exact h2
      · exact h3 m2 hm2
    · rintro ⟨h1, h2⟩
      exact ⟨⟨h1, h2 m (List.mem_cons_self m rest)⟩,
        fun m2 hm2 => h2 m2 (List.mem_cons_of_mem m hm2)⟩

theorem mergeMaps_get_val (maps : List (List (List Char × Nat))) :
    ∀ (acc : List (List Char × Nat)) (d : List Char),
    (mapGet (maps.foldl mergeInto acc) d).getD 0
      = (mapGet acc d).getD 0
        + (maps.map
            (fun m => ((m.filter (fun p => p.1 = d)).map Prod.snd).sum)).sum := by
  induction maps with
  | nil =>
    intro acc d
    simp
  | cons m rest ih =>
    intro acc d
    have hstep : (m :: rest).foldl mergeInto acc
        = rest.foldl mergeInto (mergeInto acc m) := rfl
    rw [hstep, ih, mergeInto_get_val]
    simp only [List.map_cons, List.sum_cons]
    omega

theorem filter_sum_of_nodup (m : List (List Char × Nat)) (d : List Char)
    (h : (m.map Prod.fst).Nodup) :
    ((m.filter (fun p => p.1 = d)).map Prod.snd).sum = (mapGet m d).getD 0 := by
  induction m with
  | nil => rfl
  | cons p rest ih =>
    obtain ⟨pk, pv⟩ := p
    simp only [List.map_cons, List.nodup_cons] at h
    by_cases hd : pk = d
    · subst hd
      have hrest := filter_key_eq_nil rest pk h.1
      simp [List.filter_cons, hrest, mapGet]
    · have hdec : decide (((pk, pv) : List Char × Nat).1 = d) = false := by
        simp [hd]
      have hne : ¬(pk = d) := hd
      simp only [List.filter_cons, hdec, Bool.false_eq_true, if_false, ih h.2]
      simp [mapGet, hne]

/-- Claim C1: for every finite sequence of daily series (maps with
distinct keys), the merged map is defined exactly on the dates present
in at least one input, its value there is the sum of the counts of that
date across all inputs (absence counting as zero), and merging zero
inputs yields the empty series. -/
theorem mergeMaps_spec (maps : List (List (List Char × Nat)))
    (hkeys : ∀ m ∈ maps, (m.map Prod.fst).Nodup) (d : List Char) :
    (mapGet (mergeMaps maps) d = none ↔ ∀ m ∈ maps, mapGet m d = none)
    ∧ ((∃ m ∈ maps, mapGet m d ≠ none) →
        mapGet (mergeMaps maps) d
          = some ((maps.map (fun m => (mapGet m d).getD 0)).sum))
    ∧ mergeMaps [] = [] := by
  have hnone : mapGet (mergeMaps maps) d = none
      ↔ ∀ m ∈ maps, d ∉ m.map Prod.fst := by
    simpa [mapGet] using mergeMaps_get_none maps [] d
  refine ⟨?_, ?_, rfl⟩
  · rw [hnone]
    constructor
    · intro h m hm
      rw [mapGet_eq_none_iff]
      exact h m hm
    · intro h m hm
      rw [← mapGet_eq_none_iff]
      exact h m hm
  · intro hex
    have hval : (mapGet (mergeMaps maps) d).getD 0
        = (maps.map (fun m => (mapGet m d).getD 0)).sum := by
      have hv := mergeMaps_get_val maps [] d
      have hmapeq : maps.map
          (fun m => ((m.filter (fun p => p.1 = d)).map Prod.snd).sum)
          = maps.map (fun m => (mapGet m d).getD 0) :=
        List.map_congr_left (fun m hm => filter_sum_of_nodup m d (hkeys m hm))
      rw [hmapeq] at hv
      simpa [mergeMaps, mapGet] using hv
    have hns : mapGet (mergeMaps maps) d ≠ none := by
      intro hc
      rcases hex with ⟨m, hm, hmd⟩
      exact hmd ((mapGet_eq_none_iff m d).mpr (hnone.mp hc m hm))
    obtain ⟨v, hv⟩ := Option.ne_none_iff_exists'.mp hns
    rw [hv] at hval ⊢
    simpa using hval

/-- Witness for C1 at the concrete input of the first spec scenario. -/
theorem mergeMaps_spec_witness :
    (∀ m ∈ [[("2024-01-01".data, 3)],
        [("2024-01-01".data, 2), ("2024-01-02".data, 1)]],
      (m.map Prod.fst).Nodup)
    ∧ mapGet (mergeMaps [[("2024-01-01".data, 3)],
          [("2024-01-01".data, 2), ("2024-01-02".data, 1)]]) ("2024-01-01".data)
        = some (([[("2024-01-01".data, 3)],
            [("2024-01-01".data, 2), ("2024-01-02".data, 1)]].map
              (fun m => (mapGet m ("2024-01-01".data)).getD 0)).sum) :=
  ⟨by decide,
   (mergeMaps_spec _ (by decide) _).2.1
     ⟨_, List.mem_cons_self _ _, by decide⟩⟩

theorem mergeMaps_perm_get (maps maps2 : List (List (List Char × Nat)))
    (h : maps.Perm maps2) (d : List Char) :
    mapGet (mergeMaps maps) d = mapGet (mergeMaps maps2) d := by
  have iff1 : mapGet (mergeMaps maps) d = none
      ↔ ∀ m ∈ maps, d ∉ m.map Prod.fst := by
    simpa [mapGet] using mergeMaps_get_none maps [] d
  have iff2 : mapGet (mergeMaps maps2) d = none
      ↔ ∀ m ∈ maps2, d ∉ m.map Prod.fst := by
    simpa [mapGet] using mergeMaps_get_none maps2 [] d
  have hsum : (maps.map
        (fun m => ((m.filter (fun p => p.1 = d)).map Prod.snd).sum)).sum
      = (maps2.map
        (fun m => ((m.filter (fun p => p.1 = d)).map Prod.snd).sum)).sum :=
    (h.map _).sum_eq
  have hval1 : (mapGet (mergeMaps maps) d).getD 0
      = (maps.map
          (fun m => ((m.filter (fun p => p.1 = d)).map Prod.snd).sum)).sum := by
    simpa [mergeMaps, mapGet] using mergeMaps_get_val maps [] d
  have hval2 : (mapGet (mergeMaps maps2) d).getD 0
      = (maps2.map
          (fun m => ((m.filter (fun p => p.1 = d)).map Prod.snd).sum)).sum := by
    simpa [mergeMaps, mapGet] using mergeMaps_get_val maps2 [] d
  by_cases hn : mapGet (mergeMaps maps) d = none
  · have hn2 : mapGet (mergeMaps maps2) d = none := by
      rw [iff2]
      intro m hm
      exact iff1.mp hn m (h.mem_iff.mpr hm)
    rw [hn, hn2]
  · have hn2 : mapGet (mergeMaps maps2) d ≠ none := by
      intro hc
      exact hn (iff1.mpr (fun m hm => iff2.mp hc m (h.mem_iff.mp hm)))
    obtain ⟨v1, hv1⟩ := Option.ne_none_iff_exists'.mp hn
    obtain ⟨v2, hv2⟩ := Option.ne_none_iff_exists'.mp hn2
    rw [hv1, hv2]
    rw [hv1] at hval1
    rw [hv2] at hval2
    simp only [Option.getD_some] at hval1 hval2
    rw [hval1, hval2, hsum]

/-- Claim C3: mergeMaps is order independent: permuting the list of
input series does not change the resulting mapping, and in particular
merging two series in either order agrees. -/
theorem mergeMaps_order_independent (maps maps2 : List (List (List Char × Nat)))
    (h : maps.Perm maps2) :
    (∀ d, mapGet (mergeMaps maps) d = mapGet (mergeMaps maps2) d)
    ∧ ∀ (A B : List (List Char × Nat)) (d : List Char),
        mapGet (mergeMaps [A, B]) d = mapGet (mergeMaps [B, A]) d :=
  ⟨fun d => mergeMaps_perm_get maps maps2 h d,
   fun A B d => mergeMaps_perm_get [A, B] [B, A] (List.Perm.swap B A []) d⟩

/-- Witness for C3 at two concrete one-entry series. -/
theorem mergeMaps_order_independent_witness :
    (([[("2024-01-01".data, 3)], [("2024-01-02".data, 2)]] :
        List (List (List Char × Nat))).Perm
      [[("2024-01-02".data, 2)], [("2024-01-01".data, 3)]])
    ∧ ∀ d, mapGet (mergeMaps [[("2024-01-01".data, 3)],
          [("2024-01-02".data, 2)]]) d
        = mapGet (mergeMaps [[("2024-01-02".data, 2)],
          [("2024-01-01".data, 3)]]) d :=
  ⟨List.Perm.swap _ _ _,
   (mergeMaps_order_independent _ _ (List.Perm.swap _ _ _)).1⟩

/-! ### Payload lemmas -/

theorem foldl_add_eq_sum (m : List (List Char × Nat)) :
    ∀ init : Nat, m.foldl (fun t p => t + p.2) init = init + (m.map Prod.snd).sum := by
  induction m with
  | nil => intro init; simp
  | cons p rest ih =>
    intro init
    simp only [List.foldl_cons, List.map_cons, List.sum_cons, ih]
    omega

theorem getLast?_mem_chars (l : List (List Char)) (a : List Char)
    (h : l.getLast? = some a) : a ∈ l := by
  induction l with
  | nil => simp at h
  | cons x xs ih =>
    cases xs with
    | nil =>
      simp only [List.getLast?_singleton, Option.some.injEq] at h
      simp [h]
    | cons y ys =>
      rw [List.getLast?_cons_cons] at h
      exact List.mem_cons_of_mem x (ih h)

theorem getLast?_of_ne_nil (l : List (List Char)) (h : l ≠ []) :
    ∃ a, l.getLast? = some a := by
  induction l with
  | nil => exact absurd rfl h
  | cons x xs ih =>
    cases xs with
    | nil => exact ⟨x, rfl⟩
    | cons y ys =>
      rcases ih (by simp) with ⟨a, ha⟩
      exact ⟨a, by rw [List.getLast?_cons_cons]; exact ha⟩

theorem sorted_head_le (l : List (List Char))
    (hp : l.Pairwise (fun a b => jsLe a b = true)) (a : List Char)
    (ha : l.head? = some a) : ∀ b ∈ l, jsLe a b = true := by
  cases l with
  | nil => simp at ha
  | cons x xs =>
    simp only [List.head?_cons, Option.some.injEq] at ha
    subst ha
    rcases List.pairwise_cons.mp hp with ⟨hx, _⟩
    intro b hb
    rcases List.mem_cons.mp hb with rfl | hb
    · exact jsLe_refl b
    · exact hx b hb

theorem sorted_le_getLast (l : List (List Char))
    (hp : l.Pairwise (fun a b => jsLe a b = true)) (a : List Char)
    (ha : l.getLast? = some a) : ∀ b ∈ l, jsLe b a = true := by
  induction l with
  | nil => simp at ha
  | cons x xs ih =>
    rcases List.pairwise_cons.mp hp with ⟨hx, hxs⟩
    cases xs with
    | nil =>
      simp only [List.getLast?_singleton, Option.some.injEq] at ha
      subst ha
      intro b hb
      rcases List.mem_cons.mp hb with rfl | hb
      · exact jsLe_refl b
      · simp at hb
    | cons y ys =>
      rw [List.getLast?_cons_cons] at ha
      intro b hb
      rcases List.mem_cons.mp hb with rfl | hb
      · exact hx a (getLast?_mem_chars _ a ha)
      · exact ih hxs ha b hb

/-- Claim C4: the payload of a merged series has start and end equal to
the lexicographic minimum and maximum of its date keys, total equal to
the sum of its values, the merged map itself as counts, and on the
empty series it is exactly the all-null zero payload. -/
theorem mergedMapToPayload_spec (merged : List (List Char × Nat))
    (hne : ∀ p ∈ merged, p.1 ≠ ([] : List Char)) :
    (merged = [] →
      mergedMapToPayload merged
        = { start := none, «end» := none, total := 0, counts := [] })
    ∧ (mergedMapToPayload merged).total = (merged.map Prod.snd).sum
    ∧ (mergedMapToPayload merged).counts = merged
    ∧ (merged ≠ [] → ∃ s e,
        (mergedMapToPayload merged).start = some s
        ∧ (mergedMapToPayload merged).«end» = some e
        ∧ s ∈ merged.map Prod.fst ∧ e ∈ merged.map Prod.fst
        ∧ ∀ k ∈ merged.map Prod.fst, jsLe s k = true ∧ jsLe k e = true) := by
  refine ⟨?_, ?_, rfl, ?_⟩
  · intro h
    subst h
    rfl
  · show merged.foldl (fun t p => t + p.2) 0 = (merged.map Prod.snd).sum
    rw [foldl_add_eq_sum merged 0, Nat.zero_add]
  · intro hmne
    have hperm := sortKeys_perm (merged.map Prod.fst)
    have hpair := sortKeys_pairwise (merged.map Prod.fst)
    have hdne : sortKeys (merged.map Prod.fst) ≠ [] := by
      intro hc
      have := hperm.length_eq
      rw [hc] at this
      simp only [List.length_nil] at this
      exact hmne (List.map_eq_nil_iff.mp (List.length_eq_zero.mp this.symm))
    obtain ⟨s, hs⟩ : ∃ s, (sortKeys (merged.map Prod.fst)).head? = some s := by
      cases hd : sortKeys (merged.map Prod.fst) with
      | nil => exact absurd hd hdne
      | cons x xs => exact ⟨x, rfl⟩
    obtain ⟨e, he⟩ := getLast?_of_ne_nil _ hdne
    have hsmem : s ∈ merged.map Prod.fst := by
      refine hperm.mem_iff.mp ?_
      cases hd : sortKeys (merged.map Prod.fst) with
      | nil => exact absurd hd hdne
      | cons x xs =>
        rw [hd] at hs
        have hxs : x = s := by simpa using hs
        rw [← hxs]
        exact List.mem_cons_self x xs
    have hemem : e ∈ merged.map Prod.fst :=
      hperm.mem_iff.mp (getLast?_mem_chars _ e he)
    have hsne : s ≠ ([] : List Char) := by
      rcases List.mem_map.mp hsmem with ⟨p, hp, hps⟩
      exact hps ▸ hne p hp
    have hene : e ≠ ([] : List Char) := by
      rcases List.mem_map.mp hemem with ⟨p, hp, hpe⟩
      exact hpe ▸ hne p hp
    refine ⟨s, e, ?_, ?_, hsmem, hemem, ?_⟩
    · show orNull (sortKeys (merged.map Prod.fst)).head? = some s
      rw [hs]
      simp [orNull, hsne]
    · show orNull (sortKeys (merged.map Prod.fst)).getLast? = some e
      rw [he]
      simp [orNull, hene]
    · intro k hk
      have hkmem : k ∈ sortKeys (merged.map Prod.fst) := hperm.mem_iff.mpr hk
      exact ⟨sorted_head_le _ hpair s hs k hkmem,
        sorted_le_getLast _ hpair e he k hkmem⟩

/-- Witness for C4 at the merged series of the first spec scenario. -/
theorem mergedMapToPayload_spec_witness :
    (∀ p ∈ [("2024-01-02".data, 1), ("2024-01-01".data, 5)],
        p.1 ≠ ([] : List Char))
    ∧ (mergedMapToPayload [("2024-01-02".data, 1), ("2024-01-01".data, 5)]).total
        = ([("2024-01-02".data, 1), ("2024-01-01".data, 5)].map Prod.snd).sum :=
  ⟨by decide,
   (mergedMapToPayload_spec _ (by decide)).2.1⟩

/-! ### Colour classifier lemmas -/

theorem colorBin_eq (maxCount count : Nat) :
    colorBin maxCount count
      = if count ≤ 0 then 0
        else if count ≤ max 1 (maxCount / 4) then 1
        else if count ≤ max 1 (maxCount / 2) then 2
        else if count ≤ max 1 (maxCount * 3 / 4) then 3 else 4 := by
  unfold colorBin breaks
  simp only [List.findIdx_cons, List.findIdx_nil, Bool.cond_eq_if,
    decide_eq_true_eq, Nat.max_self]
  generalize max 1 (maxCount / 4) = t1
  generalize max 1 (maxCount / 2) = t2
  generalize max 1 (maxCount * 3 / 4) = t3
  split_ifs <;> omega

/-- Claim C5: the colour classifier selects the smallest bin whose
threshold is at or above the count, with the thresholds
0, max(1, floor(maxCount/4)), max(1, floor(maxCount/2)),
max(1, floor(3 maxCount/4)), bin 4 beyond the last threshold, and bin 0
exactly for count 0; the fill colour is the palette entry of that
bin. -/
theorem colorForCount_spec (maxCount count : Nat) (hpos : 0 < maxCount) :
    breaks maxCount
      = [0, max 1 (maxCount / 4), max 1 (maxCount / 2), max 1 (maxCount * 3 / 4)]
    ∧ (colorBin maxCount count = 0 ↔ count = 0)
    ∧ (colorBin maxCount count = 1
        ↔ (0 < count ∧ count ≤ max 1 (maxCount / 4)))
    ∧ (colorBin maxCount count = 2
        ↔ (max 1 (maxCount / 4) < count ∧ count ≤ max 1 (maxCount / 2)))
    ∧ (colorBin maxCount count = 3
        ↔ (max 1 (maxCount / 2) < count ∧ count ≤ max 1 (maxCount * 3 / 4)))
    ∧ (colorBin maxCount count = 4 ↔ max 1 (maxCount * 3 / 4) < count)
    ∧ colorBin maxCount 0 = 0
    ∧ colorForCount maxCount count
        = palette.getD (colorBin maxCount count) [] := by
  have h1 := colorBin_eq maxCount count
  have h0 := colorBin_eq maxCount 0
  have hd1 : maxCount / 4 ≤ maxCount / 2 := by omega
  have hd2 : maxCount / 2 ≤ maxCount * 3 / 4 := by omega
  have e1 : (1 : Nat) ≤ max 1 (maxCount / 4) := le_max_left _ _
  have e12 : max 1 (maxCount / 4) ≤ max 1 (maxCount / 2) :=
    max_le_max (le_refl 1) hd1
  have e23 : max 1 (maxCount / 2) ≤ max 1 (maxCount * 3 / 4) :=
    max_le_max (le_refl 1) hd2
  refine ⟨rfl, ?_, ?_, ?_, ?_, ?_, ?_, rfl⟩ <;>
    (first
      | (rw [h1]
         clear h0 h1
         generalize hg1 : max 1 (maxCount / 4) = t1 at e1 e12 ⊢
         generalize hg2 : max 1 (maxCount / 2) = t2 at e12 e23 ⊢
         generalize hg3 : max 1 (maxCount * 3 / 4) = t3 at e23 ⊢
         split_ifs <;> (try simp) <;> omega)
      | (rw [h0]
         clear h0 h1
         generalize hg1 : max 1 (maxCount / 4) = t1 at e1 e12 ⊢
         generalize hg2 : max 1 (maxCount / 2) = t2 at e12 e23 ⊢
         generalize hg3 : max 1 (maxCount * 3 / 4) = t3 at e23 ⊢
         split_ifs <;> (try simp) <;> omega))

/-- Witness for C5: with maximum 10 the thresholds are 0, 2, 5, 7, and a
count of 3 lands in bin 2. -/
theorem colorForCount_spec_witness :
    0 < 10 ∧ colorBin 10 3 = 2 :=
  ⟨by decide,
   (colorForCount_spec 10 3 (by decide)).2.2.2.1.mpr ⟨by decide, by decide⟩⟩

/-- Claim C8: for a fixed maximum, the colour bin is monotone in the
count. -/
theorem colorBin_monotone (maxCount c1 c2 : Nat) (h : c1 ≤ c2) :
    colorBin maxCount c1 ≤ colorBin maxCount c2 := by
  have h1 := colorBin_eq maxCount c1
  have h2 := colorBin_eq maxCount c2
  have e1 : (1 : Nat) ≤ max 1 (maxCount / 4) := le_max_left _ _
  have hd1 : maxCount / 4 ≤ maxCount / 2 := by omega
  have hd2 : maxCount / 2 ≤ maxCount * 3 / 4 := by omega
  have e12 : max 1 (maxCount / 4) ≤ max 1 (maxCount / 2) :=
    max_le_max (le_refl 1) hd1
  have e23 : max 1 (maxCount / 2) ≤ max 1 (maxCount * 3 / 4) :=
    max_le_max (le_refl 1) hd2
  rw [h1, h2]
  clear h1 h2
  generalize hg1 : max 1 (maxCount / 4) = t1 at e1 e12 ⊢
  generalize hg2 : max 1 (maxCount / 2) = t2 at e12 e23 ⊢
  generalize hg3 : max 1 (maxCount * 3 / 4) = t3 at e23 ⊢
  split_ifs <;> (try simp) <;> omega

/-- Witness for C8 at maximum 10 and counts 2 and 7. -/
theorem colorBin_monotone_witness :
    2 ≤ 7 ∧ colorBin 10 2 ≤ colorBin 10 7 :=
  ⟨by decide, colorBin_monotone 10 2 7 (by decide)⟩

/-! ### Grid lemmas -/

/-- Claim C2: for any start at or before end, the grid is aligned: the
calendar start is at or before the start and falls on a Sunday, the
week count is the ceiling of the inclusive day count divided by 7, and
every day of the range gets a week column in range and a weekday row
that is both the remainder of its offset and its own weekday, the pair
determining the day uniquely. -/
theorem grid_spec (start last : Int) (h : start ≤ last) :
    calendarStartOf start ≤ start
    ∧ dayOfWeek (calendarStartOf start) = 0
    ∧ totalDaysOf start last ≤ 7 * weeksOf (totalDaysOf start last)
    ∧ 7 * weeksOf (totalDaysOf start last) < totalDaysOf start last + 7
    ∧ (∀ d : Int, start ≤ d → d ≤ last →
        0 ≤ (d - calendarStartOf start) / 7
        ∧ (d - calendarStartOf start) / 7 < weeksOf (totalDaysOf start last)
        ∧ (d - calendarStartOf start) % 7 = dayOfWeek d
        ∧ ∀ d2 : Int, start ≤ d2 → d2 ≤ last →
            (d - calendarStartOf start) / 7 = (d2 - calendarStartOf start) / 7 →
            (d - calendarStartOf start) % 7 = (d2 - calendarStartOf start) % 7 →
            d = d2) := by
  simp only [calendarStartOf, totalDaysOf, weeksOf, dayOfWeek]
  refine ⟨by omega, by omega, by omega, by omega, ?_⟩
  intro d hd1 hd2
  refine ⟨by omega, by omega, by omega, ?_⟩
  intro d2 h1 h2 h3 h4
  omega

/-- Witness for C2 at the third spec scenario: the single day
2024-03-01, day number 19783. -/
theorem grid_spec_witness :
    (19783 : Int) ≤ 19783
    ∧ (calendarStartOf 19783 ≤ 19783
        ∧ dayOfWeek (calendarStartOf 19783) = 0
        ∧ totalDaysOf 19783 19783 ≤ 7 * weeksOf (totalDaysOf 19783 19783)
        ∧ 7 * weeksOf (totalDaysOf 19783 19783) < totalDaysOf 19783 19783 + 7
        ∧ (∀ d : Int, 19783 ≤ d → d ≤ 19783 →
            0 ≤ (d - calendarStartOf 19783) / 7
            ∧ (d - calendarStartOf 19783) / 7 < weeksOf (totalDaysOf 19783 19783)
            ∧ (d - calendarStartOf 19783) % 7 = dayOfWeek d
            ∧ ∀ d2 : Int, 19783 ≤ d2 → d2 ≤ 19783 →
                (d - calendarStartOf 19783) / 7 = (d2 - calendarStartOf 19783) / 7 →
                (d - calendarStartOf 19783) % 7 = (d2 - calendarStartOf 19783) % 7 →
                d = d2)) :=
  ⟨by decide, grid_spec 19783 19783 (by decide)⟩

/-! ### Renderer lemmas -/

/-- Claim C7: an empty merged series summarises to null start and end,
and the renderer maps any payload with a null start or end to the
minimal rendered calendar, with no cells and no labels, rather than
failing. -/
theorem render_empty_spec (p : Payload) :
    ((mergedMapToPayload []).start = none ∧ (mergedMapToPayload []).«end» = none)
    ∧ ((p.start = none ∨ p.«end» = none) →
        renderCalendarSVG p = emptyRendered
        ∧ (renderCalendarSVG p).cells = []
        ∧ (renderCalendarSVG p).monthLabels = []
        ∧ (renderCalendarSVG p).weekdayLabels = []) := by
  refine ⟨⟨rfl, rfl⟩, ?_⟩
  intro h
  have he : renderCalendarSVG p = emptyRendered := by
    unfold renderCalendarSVG
    rcases h with h | h
    · rw [h]
    · rw [h]
      cases p.start <;> rfl
  exact ⟨he, by rw [he]; rfl, by rw [he]; rfl, by rw [he]; rfl⟩

/-- Witness for C7 at the payload of the empty merge. -/
theorem render_empty_spec_witness :
    ((mergedMapToPayload []).start = none
      ∨ (mergedMapToPayload []).«end» = none)
    ∧ renderCalendarSVG (mergedMapToPayload []) = emptyRendered :=
  ⟨Or.inl rfl, ((render_empty_spec (mergedMapToPayload [])).2 (Or.inl rfl)).1⟩

theorem colorForCount_zero (maxCount : Nat) :
    colorForCount maxCount 0 = palette.getD 0 [] := by
  unfold colorForCount
  rw [show colorBin maxCount 0 = 0 from by rw [colorBin_eq]; simp]

/-- Claim C10: for a payload with a non-null, non-empty start and end in
order, the renderer emits exactly one cell per day of the aligned range
from the calendar start to the end, and a day whose ISO date is absent
from the counts object is rendered with count 0 and the lowest-bin
fill. -/
theorem render_cells_spec (p : Payload) (s e : List Char)
    (hs : p.start = some s) (he : p.«end» = some e)
    (hsne : s ≠ []) (hene : e ≠ [])
    (hrange : parseDate s ≤ parseDate e) :
    (renderCalendarSVG p).cells.length
      = (totalDaysOf (parseDate s) (parseDate e)).toNat
    ∧ ∀ i : Nat, i < (totalDaysOf (parseDate s) (parseDate e)).toNat →
        ∃ c ∈ (renderCalendarSVG p).cells,
          c.iso = isoOfDay (calendarStartOf (parseDate s) + (i : Int))
          ∧ c.count = (mapGet p.counts
              (isoOfDay (calendarStartOf (parseDate s) + (i : Int)))).getD 0
          ∧ (mapGet p.counts
              (isoOfDay (calendarStartOf (parseDate s) + (i : Int))) = none →
              c.count = 0 ∧ c.fill = palette.getD 0 []) := by
  have hcells : (renderCalendarSVG p).cells
      = cellsOf (calendarStartOf (parseDate s))
          (totalDaysOf (parseDate s) (parseDate e)) p.counts
          (maxCountOf p.counts) := by
    have hcond : ¬(s = [] ∨ e = []) := by
      rintro (hc | hc)
      · exact hsne hc
      · exact hene hc
    simp only [renderCalendarSVG, hs, he]
    rw [if_neg hcond]
  rw [hcells]
  constructor
  · simp [cellsOf]
  · intro i hi
    refine ⟨_, List.mem_map.mpr ⟨i, List.mem_range.mpr hi, rfl⟩, rfl, rfl, ?_⟩
    intro hnone
    refine ⟨by simp [hnone], ?_⟩
    show colorForCount (maxCountOf p.counts)
        ((mapGet p.counts
          (isoOfDay (calendarStartOf (parseDate s) + (i : Int)))).getD 0)
      = palette.getD 0 []
    rw [hnone]
    exact colorForCount_zero _

/-- Witness for C10 at the third spec scenario payload. -/
theorem render_cells_spec_witness :
    ({ start := some ("2024-03-01".data), «end» := some ("2024-03-01".data),
        total := 10, counts := [("2024-03-01".data, 10)] } : Payload).start
        = some ("2024-03-01".data)
    ∧ parseDate ("2024-03-01".data) ≤ parseDate ("2024-03-01".data)
    ∧ (renderCalendarSVG
        { start := some ("2024-03-01".data), «end» := some ("2024-03-01".data),
          total := 10, counts := [("2024-03-01".data, 10)] }).cells.length
      = (totalDaysOf (parseDate ("2024-03-01".data))
          (parseDate ("2024-03-01".data))).toNat :=
  ⟨rfl, by decide,
   (render_cells_spec _ _ _ rfl rfl (by decide) (by decide) (by decide)).1⟩

/-! ### Request surface lemmas -/

/-- Claim C9: the users parameter parser fails with a client error
exactly when the parsed identity list is empty or longer than 10,
returns the parsed list otherwise, and a parse error short-circuits the
combined endpoint before the aggregation pipeline runs. -/
theorem parseUsersParam_spec (q : Option (List Char)) :
    ((∃ msg, parseUsersParam q = Except.error msg)
      ↔ (((splitOnChar ',' (q.getD [])).map trimChars).filter
            (fun s => !s.isEmpty) = []
          ∨ 10 < (((splitOnChar ',' (q.getD [])).map trimChars).filter
            (fun s => !s.isEmpty)).length))
    ∧ (∀ users, parseUsersParam q = Except.ok users →
        users = ((splitOnChar ',' (q.getD [])).map trimChars).filter
          (fun s => !s.isEmpty))
    ∧ (∀ (fetch : List Char → List (List Char × Nat)) msg,
        parseUsersParam q = Except.error msg →
        apiCombined fetch q = Except.error msg) := by
  have hpu : parseUsersParam q
      = (if (((splitOnChar ',' (q.getD [])).map trimChars).filter
            (fun s => !s.isEmpty)).length = 0 then
          Except.error
            ("Missing users parameter. Example: ?users=donken,donken-lilly".data)
        else if (((splitOnChar ',' (q.getD [])).map trimChars).filter
            (fun s => !s.isEmpty)).length > 10 then
          Except.error ("Too many users requested (limit 10).".data)
        else Except.ok (((splitOnChar ',' (q.getD [])).map trimChars).filter
          (fun s => !s.isEmpty))) := rfl
  refine ⟨⟨?_, ?_⟩, ?_, ?_⟩
  · rintro ⟨msg, hmsg⟩
    rw [hpu] at hmsg
    split_ifs at hmsg with h1 h2
    · exact Or.inl (List.length_eq_zero.mp h1)
    · exact Or.inr h2
  · intro h
    rw [hpu]
    by_cases h1 : (((splitOnChar ',' (q.getD [])).map trimChars).filter
        (fun s => !s.isEmpty)).length = 0
    · rw [if_pos h1]
      exact ⟨_, rfl⟩
    · have h10 : (((splitOnChar ',' (q.getD [])).map trimChars).filter
          (fun s => !s.isEmpty)).length > 10 := by
        rcases h with h | h
        · exact absurd (by rw [h]; rfl) h1
        · exact h
      rw [if_neg h1, if_pos h10]
      exact ⟨_, rfl⟩
  · intro users h
    rw [hpu] at h
    split_ifs at h
    injection h with h2
    exact h2.symm
  · intro fetch msg h
    unfold apiCombined
    rw [h]

/-- Witness for C9: a missing users parameter is rejected, and the
rejection matches the empty parsed list. -/
theorem parseUsersParam_spec_witness :
    (∃ msg, parseUsersParam (none : Option (List Char)) = Except.error msg)
    ∧ ((splitOnChar ',' ((none : Option (List Char)).getD [])).map
        trimChars).filter (fun s => !s.isEmpty) = [] :=
  ⟨(parseUsersParam_spec none).1.mpr (Or.inl (by decide)), by decide⟩

/-! ### Month key ordering -/

theorem monthKeyOfDay_le (z1 z2 : Int) (h0 : 0 ≤ z1) (h12 : z1 ≤ z2)
    (h2 : z2 ≤ 2932896) :
    monthKeyOfDay z1 = monthKeyOfDay z2
      ∨ jsLtChars (monthKeyOfDay z1) (monthKeyOfDay z2) = true := by
  have hb1 := yearFromDay_bounds z1 h0 (by omega)
  have hb2 := yearFromDay_bounds z2 (by omega) h2
  have hm1 := monthFromDay_bounds z1
  have hm2 := monthFromDay_bounds z2
  have hy1 : (yearFromDay z1).toNat < 10000 := by omega
  have hy2 : (yearFromDay z2).toNat < 10000 := by omega
  have hmm1 : (monthFromDay z1).toNat < 100 := by omega
  have hmm2 : (monthFromDay z2).toNat < 100 := by omega
  rw [monthKeyOfDay_eq_pad z1, monthKeyOfDay_eq_pad z2]
  rcases monthPair_mono z1 z2 h12 with hy | ⟨hy, hm⟩
  · right
    rw [jsLtChars_monthKeyPad _ _ _ _ hy1 hy2 hmm1 hmm2]
    left
    omega
  · rcases lt_or_eq_of_le hm with hm | hm
    · right
      rw [jsLtChars_monthKeyPad _ _ _ _ hy1 hy2 hmm1 hmm2]
      right
      constructor <;> omega
    · left
      have e1 : (yearFromDay z1).toNat = (yearFromDay z2).toNat := by omega
      have e2 : (monthFromDay z1).toNat = (monthFromDay z2).toNat := by omega
      rw [e1, e2]

theorem monthKeyOfDay_lt_of_ne (z1 z2 : Int) (h0 : 0 ≤ z1) (h12 : z1 ≤ z2)
    (h2 : z2 ≤ 2932896) (hne : monthKeyOfDay z1 ≠ monthKeyOfDay z2) :
    jsLtChars (monthKeyOfDay z1) (monthKeyOfDay z2) = true :=
  (monthKeyOfDay_le z1 z2 h0 h12 h2).resolve_left hne

theorem mapGet_of_mem_nodup (m : List (List Char × Nat))
    (p : List Char × Nat) (hp : p ∈ m) (hnd : (m.map Prod.fst).Nodup) :
    mapGet m p.1 = some p.2 := by
  induction m with
  | nil => simp at hp
  | cons q rest ih =>
    obtain ⟨qk, qv⟩ := q
    simp only [List.map_cons, List.nodup_cons] at hnd
    rcases List.mem_cons.mp hp with rfl | hp
    · simp [mapGet]
    · have hne : ¬(qk = p.1) := by
        intro hc
        exact hnd.1 (hc ▸ List.mem_map.mpr ⟨p, hp, rfl⟩)
      simp [mapGet, hne, ih hp hnd.2]

theorem monthScan_spec (cal : Int) (hcal : 0 ≤ cal) :
    ∀ n : Nat, cal + n ≤ 2932897 →
      ((monthScan cal n).map Prod.fst).Nodup
      ∧ (∀ k, k ∈ (monthScan cal n).map Prod.fst
          ↔ ∃ i : Nat, i < n ∧ monthKeyOfDay (cal + i) = k)
      ∧ (∀ p ∈ monthScan cal n, ∃ i : Nat, i < n
          ∧ monthKeyOfDay (cal + i) = p.1
          ∧ (∀ j : Nat, j < i → monthKeyOfDay (cal + j) ≠ p.1)
          ∧ p.2 = i / 7)
      ∧ ((monthScan cal n).map Prod.fst).Pairwise
          (fun a b => jsLtChars a b = true) := by
  intro n
  induction n with
  | zero =>
    intro _
    refine ⟨by simp [monthScan], ?_, by simp [monthScan], by simp [monthScan]⟩
    intro k
    simp [monthScan]
  | succ n ih =>
    intro hrange
    obtain ⟨ih1, ih2, ih3, ih4⟩ := ih (by push_cast at hrange; omega)
    by_cases hmem :
        monthKeyOfDay (cal + (n : Int)) ∈ (monthScan cal n).map Prod.fst
    · have heq : monthScan cal (n + 1) = monthScan cal n := by
        simp [monthScan, hmem]
      rw [heq]
      refine ⟨ih1, ?_, ?_, ih4⟩
      · intro k
        rw [ih2 k]
        constructor
        · rintro ⟨i, hi, hk⟩
          exact ⟨i, by omega, hk⟩
        · rintro ⟨i, hi, hk⟩
          rcases Nat.lt_succ_iff_lt_or_eq.mp hi with hi | rfl
          · exact ⟨i, hi, hk⟩
          · exact (ih2 k).mp (hk ▸ hmem)
      · intro p hp
        obtain ⟨i, hi, h1, h2, h3⟩ := ih3 p hp
        exact ⟨i, by omega, h1, h2, h3⟩
    · have heq : monthScan cal (n + 1)
          = monthScan cal n ++ [(monthKeyOfDay (cal + (n : Int)), n / 7)] := by
        simp [monthScan, hmem]
      rw [heq]
      have hnewfresh : ∀ j : Nat, j < n →
          monthKeyOfDay (cal + j) ≠ monthKeyOfDay (cal + (n : Int)) := by
        intro j hj hc
        exact hmem ((ih2 _).mpr ⟨j, hj, hc⟩)
      refine ⟨?_, ?_, ?_, ?_⟩
      · rw [List.map_append]
        simp only [List.map_cons, List.map_nil]
        rw [List.nodup_append]
        exact ⟨ih1, List.nodup_singleton _,
          fun a ha hb => hmem ((List.mem_singleton.mp hb) ▸ ha)⟩
      · intro k
        rw [List.map_append]
        simp only [List.map_cons, List.map_nil, List.mem_append,
          List.mem_singleton]
        constructor
        · rintro (hk | rfl)
          · obtain ⟨i, hi, hik⟩ := (ih2 k).mp hk
            exact ⟨i, by omega, hik⟩
          · exact ⟨n, by omega, rfl⟩
        · rintro ⟨i, hi, hik⟩
          rcases Nat.lt_succ_iff_lt_or_eq.mp hi with hi | rfl
          · exact Or.inl ((ih2 k).mpr ⟨i, hi, hik⟩)
          · exact Or.inr hik.symm
      · intro p hp
        rcases List.mem_append.mp hp with hp | hp
        · obtain ⟨i, hi, h1, h2, h3⟩ := ih3 p hp
          exact ⟨i, by omega, h1, h2, h3⟩
        · rw [List.mem_singleton] at hp
          subst hp
          refine ⟨n, by omega, rfl, ?_, rfl⟩
          intro j hj
          exact hnewfresh j hj
      · rw [List.map_append]
        simp only [List.map_cons, List.map_nil]
        rw [List.pairwise_append]
        refine ⟨ih4, List.pairwise_singleton _ _, ?_⟩
        intro a ha b hb
        rw [List.mem_singleton] at hb
        subst hb
        obtain ⟨i, hi, hik⟩ := (ih2 a).mp ha
        rw [← hik]
        refine monthKeyOfDay_lt_of_ne _ _ (by omega) (by omega) ?_ ?_
        · push_cast at hrange
          omega
        · rw [hik]
          intro hc
          exact hmem (hc ▸ ha)

theorem monthLabelsOf_keys (mp : List (List Char × Nat))
    (hsorted : (mp.map Prod.fst).Pairwise (fun a b => jsLtChars a b = true)) :
    (monthLabelsOf mp).map MonthLabel.key = mp.map Prod.fst := by
  unfold monthLabelsOf
  rw [sortKeys_of_sorted _ hsorted, List.map_map]
  simp [Function.comp]

theorem monthLabelsOf_mem (mp : List (List Char × Nat))
    (hnd : (mp.map Prod.fst).Nodup)
    (hsorted : (mp.map Prod.fst).Pairwise (fun a b => jsLtChars a b = true))
    (l : MonthLabel) (hl : l ∈ monthLabelsOf mp) :
    ∃ w, (l.key, w) ∈ mp ∧ l.weekColumn = w := by
  unfold monthLabelsOf at hl
  rw [sortKeys_of_sorted _ hsorted] at hl
  rcases List.mem_map.mp hl with ⟨mk, hmk, rfl⟩
  rcases List.mem_map.mp hmk with ⟨p, hp, rfl⟩
  refine ⟨p.2, by simpa using hp, ?_⟩
  show (mapGet mp p.1).getD 0 = p.2
  rw [mapGet_of_mem_nodup mp p hp hnd]
  rfl

/-- Claim C6: month labels come from the chronological scan of the
aligned range: there is exactly one label per distinct month key
occurring in the range, each label carries the week column of the first
in-range day of its month, and the emitted order is chronological -
every day of an earlier label's month precedes every day of a later
label's month. -/
theorem monthLabels_spec (cal td : Int) (hcal : 0 ≤ cal) (htd : 1 ≤ td)
    (hrange : cal + td ≤ 2932897) :
    ((monthLabelsOf (monthPositionsOf cal td)).map MonthLabel.key).Nodup
    ∧ (∀ k, k ∈ (monthLabelsOf (monthPositionsOf cal td)).map MonthLabel.key
        ↔ ∃ i : Nat, (i : Int) < td ∧ monthKeyOfDay (cal + (i : Int)) = k)
    ∧ (∀ l ∈ monthLabelsOf (monthPositionsOf cal td),
        ∃ i : Nat, (i : Int) < td ∧ monthKeyOfDay (cal + (i : Int)) = l.key
          ∧ (∀ j : Nat, j < i → monthKeyOfDay (cal + (j : Int)) ≠ l.key)
          ∧ l.weekColumn = i / 7)
    ∧ (monthLabelsOf (monthPositionsOf cal td)).Pairwise
        (fun a b => ∀ i j : Nat, (i : Int) < td → (j : Int) < td →
          monthKeyOfDay (cal + (i : Int)) = a.key →
          monthKeyOfDay (cal + (j : Int)) = b.key → i < j) := by
  have hmp : monthPositionsOf cal td = monthScan cal td.toNat := rfl
  have hn : cal + (td.toNat : Int) ≤ 2932897 := by omega
  obtain ⟨h1, h2, h3, h4⟩ := monthScan_spec cal hcal td.toNat hn
  have hkeys := monthLabelsOf_keys _ h4
  rw [hmp]
  refine ⟨?_, ?_, ?_, ?_⟩
  · rw [hkeys]
    exact h1
  · intro k
    rw [hkeys, h2 k]
    constructor <;> rintro ⟨i, hi, hk⟩ <;> exact ⟨i, by omega, hk⟩
  · intro l hl
    obtain ⟨w, hw, hwc⟩ := monthLabelsOf_mem _ h1 h4 l hl
    obtain ⟨i, hi, hk1, hk2, hk3⟩ := h3 (l.key, w) hw
    refine ⟨i, by omega, hk1, hk2, ?_⟩
    rw [hwc]
    exact hk3
  · have h4l : ((monthLabelsOf (monthScan cal td.toNat)).map
        MonthLabel.key).Pairwise (fun a b => jsLtChars a b = true) := by
      rw [hkeys]
      exact h4
    have hpw := List.pairwise_map.mp h4l
    refine hpw.imp ?_
    intro a b hab i j hi hj hik hjk
    by_contra hc
    push_neg at hc
    have hji : (cal + (j : Int)) ≤ cal + (i : Int) := by omega
    rcases monthKeyOfDay_le (cal + (j : Int)) (cal + (i : Int))
        (by omega) hji (by omega) with heq | hlt
    · rw [hjk, hik] at heq
      rw [heq] at hab
      rw [jsLtChars_irrefl] at hab
      cases hab
    · rw [hjk, hik] at hlt
      rw [jsLtChars_asymm _ _ hab] at hlt
      cases hlt

set_option maxHeartbeats 8000000 in
/-- Witness for C6 at the fourth spec scenario: a range from Sunday
2024-01-14 (day 19736) spanning 25 days into February; exactly two
labels are produced, the second at the week column of 2024-02-01 even
though that column also holds January days. -/
theorem monthLabels_spec_witness :
    (0 : Int) ≤ 19736 ∧ (1 : Int) ≤ 25 ∧ (19736 : Int) + 25 ≤ 2932897
    ∧ ((monthLabelsOf (monthPositionsOf 19736 25)).map MonthLabel.key).Nodup
    ∧ (monthLabelsOf (monthPositionsOf 19736 25)).map
        (fun l => (l.key, l.weekColumn))
      = [("2024-01".data, 0), ("2024-02".data, 2)] :=
  ⟨by decide, by decide, by decide,
   (monthLabels_spec 19736 25 (by decide) (by decide) (by decide)).1,
   by decide⟩
